import Mathlib

/-
Verification of the habit-tracker state core: a shallow embedding of the
normalization, persistence, streak and event-handler logic of the app
(state.js and events.js), with theorems about the documented behaviour.

Modelling conventions:
- JS dynamic values are the inductive type JSValue.  Numbers are modelled
  as Int (the app only ever meets JSON integers and booleans in the data
  paths verified here; NaN and other float artefacts are out of scope).
- JS objects are association lists of own enumerable properties in
  insertion order.  Real JS objects never hold a duplicate key; lookups
  here take the first match, writes overwrite the first match, so the
  model agrees with JS on every duplicate-free list.
- Property access v.k is total in JS except on null and undefined, where
  it throws.  getField is the total read (undefined when absent or on a
  primitive receiver); getFieldExc returns none exactly when JS would
  throw.  Exotic primitive properties (string length and index
  properties) never collide with the keys the app uses and are not
  modelled.
- Fresh id generation (crypto.randomUUID or the Date.now fallback) is
  modelled by a parameter gen : Nat → String giving the id generated for
  the habit at a given index; within one normalization call each index is
  used at most once, so an arbitrary function covers both schemes.
- Dates: the streak loop only ever looks at the date key of the day i
  days before today.  It is modelled by a parameter keyOf : Int → String
  (abstracting toKey composed with calendar subtraction, which setDate
  performs) and a day number today : Int, so the key of the day i days
  back is keyOf (today - i).
-/

/-- Dynamic JavaScript values as the app can meet them in its data paths. -/
inductive JSValue where
  | undefined : JSValue
  | null : JSValue
  | bool : Bool → JSValue
  | num : Int → JSValue
  | str : String → JSValue
  | arr : List JSValue → JSValue
  | obj : List (String × JSValue) → JSValue

/-- Truthiness of a JS value: undefined, null, false, 0 and the empty
string are falsy; every other value (all arrays and objects) is truthy. -/
def truthy : JSValue → Bool
  | .undefined => false
  | .null => false
  | .bool b => b
  | .num n => n != 0
  | .str s => s != ""
  | .arr _ => true
  | .obj _ => true

/-- Whether typeof v === "object" holds: true for null, arrays and plain
objects, false for undefined, booleans, numbers and strings. -/
def typeofObject : JSValue → Bool
  | .null => true
  | .arr _ => true
  | .obj _ => true
  | _ => false

/-- Whether Array.isArray(v) holds. -/
def isArrayJS : JSValue → Bool
  | .arr _ => true
  | _ => false

/-- Total property read v[k]: the stored value on an object holding the
key, undefined otherwise (including on primitive receivers). -/
def getField (v : JSValue) (k : String) : JSValue :=
  match v with
  | .obj fields => (List.lookup k fields).getD .undefined
  | _ => .undefined

/-- Property read that tracks the one way JS property access can raise:
reading from null or undefined throws a TypeError, modelled as none. -/
def getFieldExc (v : JSValue) (k : String) : Option JSValue :=
  match v with
  | .undefined => none
  | .null => none
  | _ => some (getField v k)

/-- Characters the model treats as trimmable whitespace (the common
subset of the JS trim character class met by the app). -/
def jsWhitespace (c : Char) : Bool :=
  c == ' ' || c == '\t' || c == '\n' || c == '\r' || c == '\x0b' || c == '\x0c'

/-- Character-list version of trimming: drop leading whitespace, then
drop trailing whitespace. -/
def trimChars (l : List Char) : List Char :=
  ((l.dropWhile jsWhitespace).reverse.dropWhile jsWhitespace).reverse

/-- Embedding of String.prototype.trim. -/
def jstrim (s : String) : String :=
  String.mk (trimChars s.data)

mutual

/-- Embedding of the String(v) coercion for the values of the model:
strings stay, numbers print, booleans print, null and undefined print
their names, arrays join their elements with commas (null and undefined
elements joining as empty), plain objects print as [object Object]. -/
def jsToString : JSValue → String
  | .undefined => "undefined"
  | .null => "null"
  | .bool b => cond b "true" "false"
  | .num n => toString n
  | .str s => s
  | .arr l => jsJoinList l
  | .obj _ => "[object Object]"

/-- Array join with comma separators, first element. -/
def jsJoinList : List JSValue → String
  | [] => ""
  | e :: rest => jsElemString e ++ jsJoinTail rest

/-- Array join with comma separators, remaining elements. -/
def jsJoinTail : List JSValue → String
  | [] => ""
  | e :: rest => "," ++ jsElemString e ++ jsJoinTail rest

/-- Stringification of a single array element inside a join: null and
undefined become empty, anything else stringifies as usual. -/
def jsElemString : JSValue → String
  | .undefined => ""
  | .null => ""
  | .bool b => cond b "true" "false"
  | .num n => toString n
  | .str s => s
  | .arr l => jsJoinList l
  | .obj _ => "[object Object]"

end

mutual

/-- Whether a value contains no undefined anywhere (JSON-representable
shape as far as the round trip through JSON.stringify is concerned). -/
def undefFree : JSValue → Bool
  | .undefined => false
  | .arr l => undefFreeList l
  | .obj l => undefFreeFields l
  | _ => true

/-- List version of undefFree. -/
def undefFreeList : List JSValue → Bool
  | [] => true
  | v :: rest => undefFree v && undefFreeList rest

/-- Field-list version of undefFree. -/
def undefFreeFields : List (String × JSValue) → Bool
  | [] => true
  | (_, v) :: rest => undefFree v && undefFreeFields rest

end

mutual

/-- Effect of JSON.parse(JSON.stringify v) on a value of the model:
object properties holding undefined are dropped, array elements holding
undefined become null, everything else survives unchanged. -/
def jsonScrub : JSValue → JSValue
  | .arr l => .arr (jsonScrubList l)
  | .obj l => .obj (jsonScrubFields l)
  | v => v

/-- List version of jsonScrub. -/
def jsonScrubList : List JSValue → List JSValue
  | [] => []
  | .undefined :: rest => .null :: jsonScrubList rest
  | v :: rest => jsonScrub v :: jsonScrubList rest

/-- Field-list version of jsonScrub. -/
def jsonScrubFields : List (String × JSValue) → List (String × JSValue)
  | [] => []
  | (_, .undefined) :: rest => jsonScrubFields rest
  | (k, v) :: rest => (k, jsonScrub v) :: jsonScrubFields rest

end

/-- Object spread of own enumerable properties, as in the copy of
h.log inside normalizeState: an object copies its field list, spreading
null, undefined or another primitive yields an empty object. -/
def spreadCopy : JSValue → JSValue
  | .obj l => .obj l
  | _ => .obj []

/-- Property write o[k] = v on a field list: overwrite the first
occurrence of the key in place, append when absent (JS objects never
hold a duplicate key, so first-match overwrite agrees with JS). -/
def setPropList : List (String × JSValue) → String → JSValue → List (String × JSValue)
  | [], k, v => [(k, v)]
  | (k2, w) :: rest, k, v =>
      if k2 == k then (k2, v) :: rest else (k2, w) :: setPropList rest k v

/-- Property write on a value: on an object, write into its field list;
on anything else produce the one-field object (the shape the spread
expressions of the toggle handler give on a primitive receiver). -/
def jsSetProp (o : JSValue) (k : String) (v : JSValue) : JSValue :=
  match o with
  | .obj l => .obj (setPropList l k v)
  | _ => .obj [(k, v)]

/-- Index-passing map, the embedding of Array.prototype.map with the
(element, index) callback used by normalizeState. -/
def mapWithIndex (f : JSValue → Nat → JSValue) : List JSValue → Nat → List JSValue
  | [], _ => []
  | h :: t, i => f h i :: mapWithIndex f t (i + 1)

/-- Value of the id expression of normalizeState (state.js lines 58-62):
the chain (h && h.id && String(h.id)) followed by || with the freshly
generated id for this index. -/
def normIdVal (gen : Nat → String) (h : JSValue) (index : Nat) : JSValue :=
  let idChain :=
    if truthy h = false then h
    else
      let hid := getField h "id"
      if truthy hid = false then hid else .str (jsToString hid)
  if truthy idChain then idChain else .str (gen index)

/-- Value of the name expression of normalizeState (state.js line 63):
the chain (h && typeof h.name === "string" && h.name.trim()) followed by
|| with the fixed placeholder. -/
def normNameVal (h : JSValue) : JSValue :=
  let nameChain :=
    if truthy h = false then h
    else
      match getField h "name" with
      | .str s => .str (jstrim s)
      | _ => .bool false
  if truthy nameChain then nameChain else .str "Untitled habit"

/-- Value of the log expression of normalizeState (state.js lines
64-67): a shallow copy of h.log when h is truthy and h.log is a truthy
non-array object, else a fresh empty object. -/
def normLogVal (h : JSValue) : JSValue :=
  let hlog := getField h "log"
  if truthy h && truthy hlog && typeofObject hlog && !isArrayJS hlog then
    spreadCopy hlog
  else .obj []

/-- Per-habit body of the map inside normalizeState (state.js lines
57-68) for the habit candidate h at position index.  The property reads
are written unguarded here because getField is total; normalizeHabitExc
places the guards exactly where the JS short-circuit evaluation does. -/
def normalizeHabit (gen : Nat → String) (h : JSValue) (index : Nat) : JSValue :=
  .obj [("id", normIdVal gen h index), ("name", normNameVal h), ("log", normLogVal h)]

/-- Habit candidate list of an arbitrary source value (state.js lines
53-54): guard the source down to an object, then take its habits field
when that is an array, else the empty list. -/
def habitCandidates (source : JSValue) : List JSValue :=
  let raw := if truthy source && typeofObject source then source else .obj []
  match getField raw "habits" with
  | .arr l => l
  | _ => []

/-- Embedding of normalizeState (state.js lines 52-70): map every habit
candidate of the guarded source through normalizeHabit. -/
def normalizeState (gen : Nat → String) (source : JSValue) : JSValue :=
  .obj [("habits", .arr (mapWithIndex (normalizeHabit gen) (habitCandidates source) 0))]

/-- Raise-tracking version of normalizeHabit: every property access goes
through getFieldExc and sits exactly under the guards the JS
short-circuit evaluation provides, so a none result means the JS body
would throw. -/
def normalizeHabitExc (gen : Nat → String) (h : JSValue) (index : Nat) : Option JSValue := do
  let idChain ←
    if truthy h = false then pure h
    else do
      let hid ← getFieldExc h "id"
      if truthy hid = false then pure hid else pure (JSValue.str (jsToString hid))
  let idVal := if truthy idChain then idChain else JSValue.str (gen index)
  let nameChain ←
    if truthy h = false then pure h
    else do
      let hn ← getFieldExc h "name"
      match hn with
      | .str s => pure (JSValue.str (jstrim s))
      | _ => pure (JSValue.bool false)
  let nameVal := if truthy nameChain then nameChain else JSValue.str "Untitled habit"
  let logVal ←
    if truthy h = false then pure (JSValue.obj [])
    else do
      let hlog ← getFieldExc h "log"
      if truthy hlog && typeofObject hlog && !isArrayJS hlog then pure (spreadCopy hlog)
      else pure (JSValue.obj [])
  pure (.obj [("id", idVal), ("name", nameVal), ("log", logVal)])

/-- Raise-tracking index map. -/
def mapWithIndexExc (f : JSValue → Nat → Option JSValue) :
    List JSValue → Nat → Option (List JSValue)
  | [], _ => some []
  | h :: t, i => do
      let v ← f h i
      let rest ← mapWithIndexExc f t (i + 1)
      pure (v :: rest)

/-- Raise-tracking version of normalizeState; none would mean the JS
function can throw on the given input. -/
def normalizeStateExc (gen : Nat → String) (source : JSValue) : Option JSValue := do
  let raw := if truthy source && typeofObject source then source else JSValue.obj []
  let rh ← getFieldExc raw "habits"
  let habitsInput :=
    match rh with
    | .arr l => l
    | _ => []
  let hs ← mapWithIndexExc (normalizeHabitExc gen) habitsInput 0
  pure (.obj [("habits", .arr hs)])

/-- Checks the §3 invariants on one produced habit: id and name are
non-empty strings and the log is a plain object (never an array). -/
def wellFormedHabit (h : JSValue) : Bool :=
  match getField h "id", getField h "name", getField h "log" with
  | .str a, .str n, .obj _ => a != "" && n != ""
  | _, _, _ => false

/-- Checks the §3 invariants on a produced state: habits is an array and
every entry is a well-formed habit. -/
def wellFormedState (v : JSValue) : Bool :=
  match getField v "habits" with
  | .arr hs => hs.all wellFormedHabit
  | _ => false

/-- Contents of the localStorage slot under the fixed key: none when the
slot is absent or empty, some none when it holds unparseable text, and
some (some v) when its text parses to the value v. -/
abbrev StoreCell := Option (Option JSValue)

/-- Embedding of saveState (state.js lines 94-97): normalize, keep the
result as the in-memory state, and store its JSON serialization (whose
later parse is jsonScrub of the value). -/
def saveState (gen : Nat → String) (nextState : JSValue) : JSValue × StoreCell :=
  let st := normalizeState gen nextState
  (st, some (some (jsonScrub st)))

/-- Embedding of loadState (state.js lines 73-91): an absent slot gives
the empty state, a parse failure is caught and gives the empty state,
and parsed data is normalized. -/
def loadState (gen : Nat → String) (store : StoreCell) : JSValue :=
  match store with
  | none => .obj [("habits", .arr [])]
  | some none => .obj [("habits", .arr [])]
  | some (some parsed) => normalizeState gen parsed

/-- Embedding of the import handler (events.js lines 128-154) from the
point where the file text is in hand: parsed is none when JSON.parse
throws, some d when it yields d.  A missing habits array (including a
throwing d.habits access on a null parse result) lands in the catch
block: the handler returns the untouched state and store and reports
false; only a habits array reaches saveState and reports true. -/
def importHandler (gen : Nat → String) (mem : JSValue) (store : StoreCell)
    (parsed : Option JSValue) : JSValue × StoreCell × Bool :=
  match parsed with
  | none => (mem, store, false)
  | some d =>
    match getFieldExc d "habits" with
    | none => (mem, store, false)
    | some hv =>
      if isArrayJS hv then
        let r := saveState gen d
        (r.1, r.2, true)
      else (mem, store, false)

/-- Whether the import validation accepts the parsed data: it must have
parsed at all and carry an array-valued habits field. -/
def importAccepted (parsed : Option JSValue) : Bool :=
  match parsed with
  | none => false
  | some d =>
    match getFieldExc d "habits" with
    | some (.arr _) => true
    | _ => false

/-- Habits list of a state value: its habits field when that is an
array, else empty (the in-memory state always has the array). -/
def stateHabits (st : JSValue) : List JSValue :=
  match getField st "habits" with
  | .arr l => l
  | _ => []

/-- Per-habit body of the day-cell toggle (events.js lines 65-73): a
habit whose id is not strictly equal to the clicked habit id passes
through untouched; the matching habit gets a copied log whose entry at
the clicked day key becomes the negation of its previous truthiness. -/
def toggleHabit (habitId dayKey : String) (h : JSValue) : JSValue :=
  let hid := getField h "id"
  let sameId := match hid with
    | .str s => s == habitId
    | _ => false
  if sameId = false then h
  else
    let log := spreadCopy (getField h "log")
    let log2 := jsSetProp log dayKey (.bool (!truthy (getField log dayKey)))
    jsSetProp h "log" log2

/-- Embedding of the day-cell click path (events.js lines 61-82): map
the toggle over the current habits and hand the result to saveState. -/
def toggleDay (gen : Nat → String) (st : JSValue) (habitId dayKey : String) :
    JSValue × StoreCell :=
  let nextHabits := (stateHabits st).map (toggleHabit habitId dayKey)
  saveState gen (.obj [("habits", .arr nextHabits)])

/-- Loop of computeStreak: walk offsets i, i+1, ... while the day test
holds, counting, with the given fuel bounding the iteration count. -/
def streakAux (dayTruthy : Nat → Bool) : Nat → Nat → Nat
  | _, 0 => 0
  | i, fuel + 1 => if dayTruthy i then streakAux dayTruthy (i + 1) fuel + 1 else 0

/-- Day test of the streak loop for a given habit, named so statements
about the loop can mention it. -/
def habitDayTruthy (keyOf : Int → String) (today : Int) (habit : JSValue) (i : Nat) : Bool :=
  truthy (getField (getField habit "log") (keyOf (today - (i : Int))))

/-- Embedding of computeStreak (state.js lines 27-49): zero for a falsy
habit or falsy log, else count consecutive truthy log entries at the
keys of today, yesterday, ... via keyOf, for at most 365 iterations. -/
def computeStreak (keyOf : Int → String) (today : Int) (habit : JSValue) : Nat :=
  if truthy habit = false ∨ truthy (getField habit "log") = false then 0
  else
    streakAux (habitDayTruthy keyOf today habit) 0 365

/-- Predicate for a habit value exactly of the shape normalizeState
produces when its generator yields non-empty ids: field order id, name,
log, the id and name non-empty strings, the name already trimmed, the
log a plain object. -/
def normalizedHabitShape (h : JSValue) : Prop :=
  ∃ a n l, h = JSValue.obj [("id", .str a), ("name", .str n), ("log", .obj l)] ∧
    a ≠ "" ∧ n ≠ "" ∧ jstrim n = n

/-- String under the id field of a habit value, for decidable
observations in witnesses and counterexamples. -/
def habitIdStr (h : JSValue) : Option String :=
  match getField h "id" with
  | .str s => some s
  | _ => none

/-- String under the name field of a habit value. -/
def habitNameStr (h : JSValue) : Option String :=
  match getField h "name" with
  | .str s => some s
  | _ => none

/-- Log entry of a habit value at a day key. -/
def habitLogEntry (h : JSValue) (k : String) : Option JSValue :=
  match getField h "log" with
  | .obj l => List.lookup k l
  | _ => none

/-- Whether a state value has a first habit whose log holds the key, a
decidable observation separating states in the round-trip
counterexample. -/
def firstHabitHasLogKey (v : JSValue) (k : String) : Bool :=
  match stateHabits v with
  | h :: _ => (habitLogEntry h k).isSome
  | [] => false

/-- Key function used in concrete streak examples: the decimal day
number itself. -/
def intKey : Int → String := fun n => toString n

/-- Log marking each of the last m days truthy: the key of today minus i
maps to true for every i below m. -/
def logAllTrue (keyOf : Int → String) (today : Int) (m : Nat) : List (String × JSValue) :=
  (List.range m).map (fun (i : Nat) => (keyOf (today - (i : Int)), JSValue.bool true))

/-- Habit whose log marks all of the last 400 days true. -/
def habit400 (keyOf : Int → String) (today : Int) : JSValue :=
  .obj [("log", .obj (logAllTrue keyOf today 400))]

/-- Habit whose log marks all of the last 366 days true, under day
number keys with today = 1000. -/
def habit366 : JSValue := .obj [("log", .obj (logAllTrue intKey 1000 366))]

/-- Malformed state whose single habit log holds an undefined value, the
one shape the JSON round trip does not preserve. -/
def undefLogState : JSValue :=
  .obj [("habits", .arr [.obj [("id", .str "a"), ("name", .str "n"),
    ("log", .obj [("k", .undefined)])]])]

/-- Normalized two-habit state used in concrete toggle checks. -/
def twoHabitState : JSValue :=
  .obj [("habits", .arr [
    .obj [("id", .str "a"), ("name", .str "n"), ("log", .obj [("d", .bool true)])],
    .obj [("id", .str "b"), ("name", .str "m"), ("log", .obj [])]])]

/-! Helper lemmas about lists, trimming and lookups. -/

/-- Dropping while a predicate holds is idempotent. -/
theorem dropWhile_idem (p : α → Bool) (l : List α) :
    (l.dropWhile p).dropWhile p = l.dropWhile p := by
  cases h : l.dropWhile p with
  | nil => simp
  | cons a t =>
    have hpa : p a = false := by
      have hh := List.head?_dropWhile_not p l
      rw [h] at hh
      simpa using hh
    simp [List.dropWhile_cons, hpa]

/-- Trimming a character list twice is trimming it once. -/
theorem trimChars_idem (l : List Char) : trimChars (trimChars l) = trimChars l := by
  unfold trimChars
  have h1 : (((l.dropWhile jsWhitespace).reverse.dropWhile jsWhitespace).reverse).dropWhile
      jsWhitespace = ((l.dropWhile jsWhitespace).reverse.dropWhile jsWhitespace).reverse := by
    cases hc : ((l.dropWhile jsWhitespace).reverse.dropWhile jsWhitespace).reverse with
    | nil => simp
    | cons c t =>
      have hsuf : (l.dropWhile jsWhitespace).reverse.dropWhile jsWhitespace <:+
          (l.dropWhile jsWhitespace).reverse := List.dropWhile_suffix jsWhitespace
      have hpre : ((l.dropWhile jsWhitespace).reverse.dropWhile jsWhitespace).reverse <+:
          l.dropWhile jsWhitespace := by
        simpa using hsuf.reverse
      obtain ⟨rest, hrest⟩ := hpre
      rw [hc] at hrest
      have hpc : jsWhitespace c = false := by
        have hh := List.head?_dropWhile_not jsWhitespace l
        rw [← hrest] at hh
        simpa using hh
      exact List.dropWhile_cons_of_neg (by simp [hpc])
  rw [h1, List.reverse_reverse, dropWhile_idem]

/-- Trimming a string twice is trimming it once. -/
theorem jstrim_idem (s : String) : jstrim (jstrim s) = jstrim s := by
  simp [jstrim, trimChars_idem]

/-- A successful lookup returns one of the stored values. -/
theorem lookup_mem_snd {l : List (String × JSValue)} {k : String} {v : JSValue}
    (h : List.lookup k l = some v) : ∃ p ∈ l, p.2 = v := by
  rcases List.lookup_eq_some_iff.mp h with ⟨l₁, l₂, rfl, -⟩
  exact ⟨(k, v), by simp, rfl⟩

/-- Looking up a present key in a list whose values all equal a constant
returns that constant, no matter which entry matches first. -/
theorem lookup_all_const {l : List (String × JSValue)} {c : JSValue}
    (hall : ∀ p ∈ l, p.2 = c) {k : String} (hk : ∃ p ∈ l, p.1 = k) :
    List.lookup k l = some c := by
  induction l with
  | nil => rcases hk with ⟨p, hp, -⟩; cases hp
  | cons q t ih =>
    obtain ⟨k1, v1⟩ := q
    by_cases hb : k = k1
    · have hbeq : (k == k1) = true := beq_iff_eq.mpr hb
      rw [List.lookup_cons, hbeq]
      exact congrArg some (hall (k1, v1) (by simp))
    · have hbeq : (k == k1) = false := beq_eq_false_iff_ne.mpr hb
      rw [List.lookup_cons, hbeq]
      refine ih (fun p hp => hall p (List.mem_cons_of_mem _ hp)) ?_
      rcases hk with ⟨p, hp, hpk⟩
      rcases List.mem_cons.mp hp with h1 | h1
      · rw [h1] at hpk
        exact absurd hpk.symm hb
      · exact ⟨p, h1, hpk⟩

/-- Writing a property and reading it back gives the written value. -/
theorem lookup_setPropList_self (l : List (String × JSValue)) (k : String) (v : JSValue) :
    List.lookup k (setPropList l k v) = some v := by
  induction l with
  | nil => simp [setPropList]
  | cons q t ih =>
    obtain ⟨k2, w⟩ := q
    by_cases hb : k2 = k
    · subst hb
      simp [setPropList]
    · have hbeq : (k2 == k) = false := beq_eq_false_iff_ne.mpr hb
      have hbeq2 : (k == k2) = false := beq_eq_false_iff_ne.mpr (fun h => hb h.symm)
      simp only [setPropList, hbeq, Bool.false_eq_true, if_false]
      rw [List.lookup_cons, hbeq2]
      exact ih

/-- Writing a property leaves every other key unchanged. -/
theorem lookup_setPropList_ne (l : List (String × JSValue)) (k k2 : String) (v : JSValue)
    (h : k2 ≠ k) : List.lookup k2 (setPropList l k v) = List.lookup k2 l := by
  have hbk : (k2 == k) = false := beq_eq_false_iff_ne.mpr h
  induction l with
  | nil =>
    simp only [setPropList, List.lookup_nil]
    rw [List.lookup_cons, hbk]
    exact List.lookup_nil
  | cons q t ih =>
    obtain ⟨k1, w⟩ := q
    by_cases hb : k1 = k
    · subst hb
      simp only [setPropList, beq_self_eq_true, if_true]
      rw [List.lookup_cons, List.lookup_cons, hbk]
    · have hbeq : (k1 == k) = false := beq_eq_false_iff_ne.mpr hb
      simp only [setPropList, hbeq, Bool.false_eq_true, if_false]
      rw [List.lookup_cons, List.lookup_cons]
      by_cases hk2 : k2 = k1
      · rw [beq_iff_eq.mpr hk2]
      · rw [beq_eq_false_iff_ne.mpr hk2]
        exact ih

/-- Length of an index-passing map. -/
theorem mapWithIndex_length (f : JSValue → Nat → JSValue) (l : List JSValue) (i : Nat) :
    (mapWithIndex f l i).length = l.length := by
  induction l generalizing i with
  | nil => rfl
  | cons h t ih => simp [mapWithIndex, ih]

/-- Entry of an index-passing map at a position within bounds. -/
theorem mapWithIndex_getD (f : JSValue → Nat → JSValue) (l : List JSValue) :
    ∀ (i j : Nat) (d d2 : JSValue), j < l.length →
      (mapWithIndex f l i).getD j d = f (l.getD j d2) (i + j) := by
  induction l with
  | nil => intro i j d d2 hj; cases hj
  | cons h t ih =>
    intro i j d d2 hj
    cases j with
    | zero => simp [mapWithIndex]
    | succ j =>
      have hj2 : j < t.length := Nat.lt_of_succ_lt_succ hj
      simp only [mapWithIndex, List.getD_cons_succ]
      rw [ih (i + 1) j d d2 hj2]
      ring_nf

/-- An index-passing map whose function fixes every output of another
index-passing map at the same position collapses to the inner map. -/
theorem mapWithIndex_fix (f g : JSValue → Nat → JSValue)
    (hfg : ∀ h j, f (g h j) j = g h j) :
    ∀ (l : List JSValue) (i : Nat), mapWithIndex f (mapWithIndex g l i) i = mapWithIndex g l i := by
  intro l
  induction l with
  | nil => intro i; rfl
  | cons h t ih => intro i; simp [mapWithIndex, hfg, ih]

/-- Conjunction over an index-passing map from a pointwise bound. -/
theorem mapWithIndex_all (f : JSValue → Nat → JSValue) (P : JSValue → Bool)
    (l : List JSValue) (i : Nat) (h : ∀ x j, P (f x j) = true) :
    (mapWithIndex f l i).all P = true := by
  induction l generalizing i with
  | nil => rfl
  | cons x t ih => simp [mapWithIndex, h, ih]

/-! Agreement of the raise-tracking and total normalizations. -/

/-- Reading a property from a truthy receiver never throws. -/
theorem getFieldExc_of_truthy {h : JSValue} (ht : truthy h = true) (k : String) :
    getFieldExc h k = some (getField h k) := by
  cases h <;> first | rfl | simp [truthy] at ht

/-- The raise-tracking habit body always succeeds, with the value of the
total habit body. -/
theorem normalizeHabitExc_eq (gen : Nat → String) (h : JSValue) (i : Nat) :
    normalizeHabitExc gen h i = some (normalizeHabit gen h i) := by
  by_cases ht : truthy h = true
  · by_cases hid : truthy (getField h "id") = false <;>
      cases hn : getField h "name" <;>
      simp [normalizeHabitExc, normalizeHabit, normIdVal, normNameVal, normLogVal, ht,
        getFieldExc_of_truthy ht, hn, hid] <;>
      split <;> simp [*]
  · have hf : truthy h = false := by simpa using ht
    simp [normalizeHabitExc, normalizeHabit, normIdVal, normNameVal, normLogVal, hf]

/-- The raise-tracking index map succeeds when its body always does. -/
theorem mapWithIndexExc_eq (f : JSValue → Nat → Option JSValue) (g : JSValue → Nat → JSValue)
    (hfg : ∀ h i, f h i = some (g h i)) :
    ∀ (l : List JSValue) (i : Nat), mapWithIndexExc f l i = some (mapWithIndex g l i) := by
  intro l
  induction l with
  | nil => intro i; rfl
  | cons h t ih => intro i; simp [mapWithIndexExc, mapWithIndex, hfg, ih]

/-- The raise-tracking normalization always succeeds, with the value of
the total normalization: the JS function can never throw. -/
theorem normalizeStateExc_eq (gen : Nat → String) (x : JSValue) :
    normalizeStateExc gen x = some (normalizeState gen x) := by
  have hmap := mapWithIndexExc_eq (normalizeHabitExc gen) (normalizeHabit gen)
    (normalizeHabitExc_eq gen)
  by_cases hc : (truthy x && typeofObject x) = true
  · have hand : truthy x = true ∧ typeofObject x = true := by simpa using hc
    simp [normalizeStateExc, normalizeState, habitCandidates, hc,
      getFieldExc_of_truthy hand.1, hmap]
  · have hc2 : (truthy x && typeofObject x) = false := by simpa using hc
    simp [normalizeStateExc, normalizeState, habitCandidates, hc2, hmap, getFieldExc]

/-! Shape of normalized habits. -/

/-- Spreading any value yields an object. -/
theorem spreadCopy_obj (v : JSValue) : ∃ l, spreadCopy v = .obj l := by
  cases v <;> exact ⟨_, rfl⟩

/-- The id expression either keeps a non-empty coerced id string or
falls back to the freshly generated id for the index. -/
theorem normIdVal_cases (gen : Nat → String) (h : JSValue) (i : Nat) :
    (∃ a, normIdVal gen h i = .str a ∧ a ≠ "") ∨ normIdVal gen h i = .str (gen i) := by
  by_cases ht : truthy h = true
  · by_cases hid : truthy (getField h "id") = true
    · by_cases he : jsToString (getField h "id") = ""
      · refine Or.inr ?_
        have h3 : truthy (JSValue.str (jsToString (getField h "id"))) = false := by
          rw [he]; rfl
        simp [normIdVal, ht, hid, h3]
      · refine Or.inl ⟨jsToString (getField h "id"), ?_, he⟩
        have h3 : truthy (JSValue.str (jsToString (getField h "id"))) = true := by
          simp [truthy, he]
        simp [normIdVal, ht, hid, h3]
    · have hid2 : truthy (getField h "id") = false := by simpa using hid
      exact Or.inr (by simp [normIdVal, ht, hid2])
  · have hf : truthy h = false := by simpa using ht
    exact Or.inr (by simp [normIdVal, hf])

/-- The id expression always yields a non-empty string when the fresh id
for the index is non-empty. -/
theorem normIdVal_str (gen : Nat → String) (h : JSValue) (i : Nat) (hg : gen i ≠ "") :
    ∃ a, normIdVal gen h i = .str a ∧ a ≠ "" := by
  rcases normIdVal_cases gen h i with ⟨a, h1, h2⟩ | h1
  · exact ⟨a, h1, h2⟩
  · exact ⟨gen i, h1, hg⟩

/-- The id expression always yields some string. -/
theorem normIdVal_isStr (gen : Nat → String) (h : JSValue) (i : Nat) :
    ∃ a, normIdVal gen h i = .str a := by
  rcases normIdVal_cases gen h i with ⟨a, h1, -⟩ | h1
  · exact ⟨a, h1⟩
  · exact ⟨gen i, h1⟩

/-- The name expression always yields a non-empty, already-trimmed
string. -/
theorem normNameVal_str (h : JSValue) :
    ∃ n, normNameVal h = .str n ∧ n ≠ "" ∧ jstrim n = n := by
  have hu1 : ("Untitled habit" : String) ≠ "" := by decide
  have hu2 : jstrim "Untitled habit" = "Untitled habit" := rfl
  by_cases ht : truthy h = true
  · cases hn : getField h "name" with
    | str s =>
      by_cases hs : jstrim s = ""
      · refine ⟨"Untitled habit", ?_, hu1, hu2⟩
        have hs4 : truthy (JSValue.str (jstrim s)) = false := by rw [hs]; rfl
        simp [normNameVal, ht, hn, hs4]
      · refine ⟨jstrim s, ?_, hs, jstrim_idem s⟩
        have h2 : truthy (JSValue.str (jstrim s)) = true := by simp [truthy, hs]
        simp [normNameVal, ht, hn, h2]
    | undefined =>
      exact ⟨"Untitled habit",
        by simp [normNameVal, ht, hn, show truthy (JSValue.bool false) = false from rfl], hu1, hu2⟩
    | null =>
      exact ⟨"Untitled habit",
        by simp [normNameVal, ht, hn, show truthy (JSValue.bool false) = false from rfl], hu1, hu2⟩
    | bool b =>
      exact ⟨"Untitled habit",
        by simp [normNameVal, ht, hn, show truthy (JSValue.bool false) = false from rfl], hu1, hu2⟩
    | num n =>
      exact ⟨"Untitled habit",
        by simp [normNameVal, ht, hn, show truthy (JSValue.bool false) = false from rfl], hu1, hu2⟩
    | arr l =>
      exact ⟨"Untitled habit",
        by simp [normNameVal, ht, hn, show truthy (JSValue.bool false) = false from rfl], hu1, hu2⟩
    | obj l =>
      exact ⟨"Untitled habit",
        by simp [normNameVal, ht, hn, show truthy (JSValue.bool false) = false from rfl], hu1, hu2⟩
  · have hf : truthy h = false := by simpa using ht
    exact ⟨"Untitled habit", by simp [normNameVal, hf], hu1, hu2⟩

/-- The log expression always yields a plain object. -/
theorem normLogVal_obj (h : JSValue) : ∃ l, normLogVal h = .obj l := by
  by_cases hc : (truthy h && truthy (getField h "log") && typeofObject (getField h "log") &&
      !isArrayJS (getField h "log")) = true
  · obtain ⟨l2, hl2⟩ := spreadCopy_obj (getField h "log")
    exact ⟨l2, by simp only [normLogVal]; rw [if_pos hc]; exact hl2⟩
  · exact ⟨[], by simp only [normLogVal]; rw [if_neg hc]⟩

/-- Every habit produced by the normalization body has the canonical
shape, when the fresh id for its index is non-empty. -/
theorem normalizeHabit_shape (gen : Nat → String) (h : JSValue) (i : Nat) (hg : gen i ≠ "") :
    normalizedHabitShape (normalizeHabit gen h i) := by
  obtain ⟨a, ha, ha2⟩ := normIdVal_str gen h i hg
  obtain ⟨n, hn, hn2, hn3⟩ := normNameVal_str h
  obtain ⟨l, hl⟩ := normLogVal_obj h
  exact ⟨a, n, l, by rw [normalizeHabit, ha, hn, hl], ha2, hn2, hn3⟩

/-- Values of the canonical shape are true fixed points of the
normalization body, for any generator and any index. -/
theorem normalizeHabit_fixpoint (gen : Nat → String) {h : JSValue}
    (hs : normalizedHabitShape h) (i : Nat) : normalizeHabit gen h i = h := by
  obtain ⟨a, n, l, rfl, ha, hn, htrim⟩ := hs
  have hida : getField (JSValue.obj [("id", .str a), ("name", .str n), ("log", .obj l)]) "id" =
      .str a := rfl
  have hnn : getField (JSValue.obj [("id", .str a), ("name", .str n), ("log", .obj l)]) "name" =
      .str n := rfl
  have hll : getField (JSValue.obj [("id", .str a), ("name", .str n), ("log", .obj l)]) "log" =
      .obj l := rfl
  have hta : truthy (JSValue.str a) = true := by simp [truthy, ha]
  have htj : truthy (JSValue.str (jsToString (JSValue.str a))) = true := by
    simpa [jsToString] using hta
  have htn : truthy (JSValue.str (jstrim n)) = true := by simp [truthy, htrim, hn]
  have htob : truthy (JSValue.obj [("id", .str a), ("name", .str n), ("log", .obj l)]) = true :=
    rfl
  have e1 : normIdVal gen
      (JSValue.obj [("id", .str a), ("name", .str n), ("log", .obj l)]) i = .str a := by
    simp [normIdVal, hida, htob, hta, htj, jsToString]
  have e2 : normNameVal
      (JSValue.obj [("id", .str a), ("name", .str n), ("log", .obj l)]) = .str n := by
    have htn2 : truthy (JSValue.str n) = true := by simp [truthy, hn]
    simp [normNameVal, hnn, htob, htn, htn2, htrim]
  have e3 : normLogVal
      (JSValue.obj [("id", .str a), ("name", .str n), ("log", .obj l)]) = .obj l := by
    simp [normLogVal, hll, htob, truthy, typeofObject, isArrayJS, spreadCopy]
  rw [normalizeHabit, e1, e2, e3]

/-- Every habit of the canonical shape passes the well-formedness
check. -/
theorem wellFormedHabit_of_shape {h : JSValue} (hs : normalizedHabitShape h) :
    wellFormedHabit h = true := by
  obtain ⟨a, n, l, rfl, ha, hn, -⟩ := hs
  have h1 : getField (JSValue.obj [("id", .str a), ("name", .str n), ("log", .obj l)]) "id" =
      .str a := rfl
  have h2 : getField (JSValue.obj [("id", .str a), ("name", .str n), ("log", .obj l)]) "name" =
      .str n := rfl
  have h3 : getField (JSValue.obj [("id", .str a), ("name", .str n), ("log", .obj l)]) "log" =
      .obj l := rfl
  simp [wellFormedHabit, h1, h2, h3, ha, hn]

/-- The habits list of a normalized state is the normalized candidate
list. -/
theorem stateHabits_normalizeState (gen : Nat → String) (x : JSValue) :
    stateHabits (normalizeState gen x) =
      mapWithIndex (normalizeHabit gen) (habitCandidates x) 0 := rfl

/-- The habit candidates of an already-normalized state are its habits. -/
theorem habitCandidates_normalizeState (gen : Nat → String) (x : JSValue) :
    habitCandidates (normalizeState gen x) =
      mapWithIndex (normalizeHabit gen) (habitCandidates x) 0 := rfl

/-- Normalizing twice is normalizing once, whenever the first pass used
a generator producing non-empty ids. -/
theorem normalizeState_fix (gen1 gen2 : Nat → String) (x : JSValue)
    (hg : ∀ i, gen1 i ≠ "") :
    normalizeState gen2 (normalizeState gen1 x) = normalizeState gen1 x := by
  show JSValue.obj [("habits",
      .arr (mapWithIndex (normalizeHabit gen2) (habitCandidates (normalizeState gen1 x)) 0))] = _
  rw [habitCandidates_normalizeState,
    mapWithIndex_fix (normalizeHabit gen2) (normalizeHabit gen1)
      (fun h j => normalizeHabit_fixpoint gen2 (normalizeHabit_shape gen1 h j (hg j)) j)]
  rfl

/-! Values without undefined survive the JSON round trip. -/

mutual

/-- The JSON round trip is the identity on undefined-free values. -/
theorem jsonScrub_undefFree : (v : JSValue) → undefFree v = true → jsonScrub v = v
  | .undefined, h => by simp [undefFree] at h
  | .null, _ => rfl
  | .bool _, _ => rfl
  | .num _, _ => rfl
  | .str _, _ => rfl
  | .arr l, h => congrArg JSValue.arr (jsonScrubList_undefFree l (by simpa [undefFree] using h))
  | .obj l, h => congrArg JSValue.obj (jsonScrubFields_undefFree l (by simpa [undefFree] using h))

/-- List version of the round-trip identity. -/
theorem jsonScrubList_undefFree :
    (l : List JSValue) → undefFreeList l = true → jsonScrubList l = l
  | [], _ => rfl
  | v :: rest, h => by
    have h1 : undefFree v = true := by
      have h2 := h
      simp [undefFreeList] at h2
      exact h2.1
    have h2 : undefFreeList rest = true := by
      have h3 := h
      simp [undefFreeList] at h3
      exact h3.2
    cases v with
    | undefined => simp [undefFree] at h1
    | null => simp [jsonScrubList, jsonScrub_undefFree _ h1, jsonScrubList_undefFree rest h2]
    | bool b => simp [jsonScrubList, jsonScrub_undefFree _ h1, jsonScrubList_undefFree rest h2]
    | num n => simp [jsonScrubList, jsonScrub_undefFree _ h1, jsonScrubList_undefFree rest h2]
    | str s => simp [jsonScrubList, jsonScrub_undefFree _ h1, jsonScrubList_undefFree rest h2]
    | arr l2 => simp [jsonScrubList, jsonScrub_undefFree _ h1, jsonScrubList_undefFree rest h2]
    | obj l2 => simp [jsonScrubList, jsonScrub_undefFree _ h1, jsonScrubList_undefFree rest h2]

/-- Field-list version of the round-trip identity. -/
theorem jsonScrubFields_undefFree :
    (l : List (String × JSValue)) → undefFreeFields l = true → jsonScrubFields l = l
  | [], _ => rfl
  | (k, v) :: rest, h => by
    have h1 : undefFree v = true := by
      have h2 := h
      simp [undefFreeFields] at h2
      exact h2.1
    have h2 : undefFreeFields rest = true := by
      have h3 := h
      simp [undefFreeFields] at h3
      exact h3.2
    cases v with
    | undefined => simp [undefFree] at h1
    | null => simp [jsonScrubFields, jsonScrub_undefFree _ h1, jsonScrubFields_undefFree rest h2]
    | bool b =>
      simp [jsonScrubFields, jsonScrub_undefFree _ h1, jsonScrubFields_undefFree rest h2]
    | num n => simp [jsonScrubFields, jsonScrub_undefFree _ h1, jsonScrubFields_undefFree rest h2]
    | str s => simp [jsonScrubFields, jsonScrub_undefFree _ h1, jsonScrubFields_undefFree rest h2]
    | arr l2 =>
      simp [jsonScrubFields, jsonScrub_undefFree _ h1, jsonScrubFields_undefFree rest h2]
    | obj l2 =>
      simp [jsonScrubFields, jsonScrub_undefFree _ h1, jsonScrubFields_undefFree rest h2]

end

/-- Members of an undefined-free value list are undefined-free. -/
theorem undefFreeList_mem {l : List JSValue} (hl : undefFreeList l = true) :
    ∀ v ∈ l, undefFree v = true := by
  induction l with
  | nil => intro v hv; cases hv
  | cons x rest ih =>
    have h2 := hl
    simp [undefFreeList] at h2
    intro v hv
    rcases List.mem_cons.mp hv with rfl | hv2
    · exact h2.1
    · exact ih h2.2 v hv2

/-- Values of an undefined-free field list are undefined-free. -/
theorem undefFreeFields_mem {l : List (String × JSValue)} (hl : undefFreeFields l = true) :
    ∀ p ∈ l, undefFree p.2 = true := by
  induction l with
  | nil => intro p hp; cases hp
  | cons x rest ih =>
    obtain ⟨k, v⟩ := x
    have h2 := hl
    simp [undefFreeFields] at h2
    intro p hp
    rcases List.mem_cons.mp hp with rfl | hp2
    · exact h2.1
    · exact ih h2.2 p hp2

/-- Reading any property of an undefined-free value gives undefined or
an undefined-free value. -/
theorem undefFree_getField (v : JSValue) (k : String) (hv : undefFree v = true) :
    getField v k = .undefined ∨ undefFree (getField v k) = true := by
  cases v with
  | obj l =>
    show (List.lookup k l).getD .undefined = .undefined ∨ undefFree ((List.lookup k l).getD .undefined) = true
    cases hl : List.lookup k l with
    | none => exact Or.inl rfl
    | some w =>
      refine Or.inr ?_
      obtain ⟨p, hp, hpv⟩ := lookup_mem_snd hl
      have := undefFreeFields_mem (by simpa [undefFree] using hv) p hp
      rw [hpv] at this
      simpa using this
  | undefined => exact Or.inl rfl
  | null => exact Or.inl rfl
  | bool b => exact Or.inl rfl
  | num n => exact Or.inl rfl
  | str s => exact Or.inl rfl
  | arr l => exact Or.inl rfl

/-- The copied log of an undefined-free habit candidate is
undefined-free. -/
theorem spreadCopy_getField_undefFree (h : JSValue) (k : String) (hh : undefFree h = true) :
    undefFree (spreadCopy (getField h k)) = true := by
  rcases undefFree_getField h k hh with he | hf
  · rw [he]; rfl
  · cases hg : getField h k with
    | obj l => rw [hg] at hf; simpa [spreadCopy, undefFree] using hf
    | undefined => rfl
    | null => rfl
    | bool b => rfl
    | num n => rfl
    | str s => rfl
    | arr l => rfl

/-- The normalization body maps undefined-free candidates to
undefined-free habits. -/
theorem normalizeHabit_undefFree (gen : Nat → String) (h : JSValue) (i : Nat)
    (hh : undefFree h = true) : undefFree (normalizeHabit gen h i) = true := by
  obtain ⟨a, ha⟩ := normIdVal_isStr gen h i
  obtain ⟨n, hn, -, -⟩ := normNameVal_str h
  have hlog : undefFree (normLogVal h) = true := by
    by_cases hc : (truthy h && truthy (getField h "log") && typeofObject (getField h "log") &&
        !isArrayJS (getField h "log")) = true
    · have : normLogVal h = spreadCopy (getField h "log") := by
        simp only [normLogVal]; rw [if_pos hc]
      rw [this]
      exact spreadCopy_getField_undefFree h "log" hh
    · have : normLogVal h = .obj [] := by
        simp only [normLogVal]; rw [if_neg hc]
      rw [this]; rfl
  simp [normalizeHabit, ha, hn, undefFree, undefFreeFields, hlog]

/-- An index-passing map of undefined-free values through the
normalization body is undefined-free. -/
theorem mapWithIndex_normalizeHabit_undefFree (gen : Nat → String) (l : List JSValue) :
    ∀ i, (∀ h ∈ l, undefFree h = true) →
      undefFreeList (mapWithIndex (normalizeHabit gen) l i) = true := by
  induction l with
  | nil => intro i _; rfl
  | cons x rest ih =>
    intro i hmem
    have h1 := normalizeHabit_undefFree gen x i (hmem x (by simp))
    have h2 := ih (i + 1) (fun h hh => hmem h (List.mem_cons_of_mem _ hh))
    simp [mapWithIndex, undefFreeList, h1, h2]

/-- Normalizing an undefined-free source gives an undefined-free
state. -/
theorem normalizeState_undefFree (gen : Nat → String) (x : JSValue)
    (hx : undefFree x = true) : undefFree (normalizeState gen x) = true := by
  have hcand : ∀ h ∈ habitCandidates x, undefFree h = true := by
    intro h hh
    have hraw : undefFree (if truthy x && typeofObject x then x else .obj []) = true := by
      by_cases hc : (truthy x && typeofObject x) = true
      · rw [if_pos hc]; exact hx
      · rw [if_neg hc]; rfl
    rw [show habitCandidates x =
        (match getField (if truthy x && typeofObject x then x else .obj []) "habits" with
          | .arr l => l
          | _ => []) from rfl] at hh
    cases hg : getField (if truthy x && typeofObject x then x else .obj []) "habits" with
    | arr l =>
      simp only [hg] at hh
      rcases undefFree_getField (if truthy x && typeofObject x then x else .obj [])
        "habits" hraw with he | hf
      · rw [hg] at he; cases he
      · rw [hg] at hf
        exact undefFreeList_mem (by simpa [undefFree] using hf) h hh
    | undefined => rw [hg] at hh; simp at hh
    | null => rw [hg] at hh; simp at hh
    | bool b => rw [hg] at hh; simp at hh
    | num n => rw [hg] at hh; simp at hh
    | str s => rw [hg] at hh; simp at hh
    | obj l => rw [hg] at hh; simp at hh
  have := mapWithIndex_normalizeHabit_undefFree gen (habitCandidates x) 0 hcand
  simp [normalizeState, undefFree, undefFreeFields, undefFreeList, this]

/-! Properties of the streak loop. -/

/-- The loop never counts more than its fuel. -/
theorem streakAux_le (f : Nat → Bool) : ∀ (fuel i : Nat), streakAux f i fuel ≤ fuel := by
  intro fuel
  induction fuel with
  | zero => intro i; exact Nat.le_refl 0
  | succ fuel ih =>
    intro i
    show (if f i then streakAux f (i + 1) fuel + 1 else 0) ≤ fuel + 1
    by_cases hf : f i = true
    · rw [if_pos hf]
      exact Nat.succ_le_succ (ih (i + 1))
    · rw [if_neg (by simpa using hf)]
      exact Nat.zero_le _

/-- Every offset below the counted streak passes the day test. -/
theorem streakAux_true_below (f : Nat → Bool) :
    ∀ (fuel i j : Nat), j < streakAux f i fuel → f (i + j) = true := by
  intro fuel
  induction fuel with
  | zero => intro i j hj; cases hj
  | succ fuel ih =>
    intro i j hj
    by_cases hf : f i = true
    · rw [show streakAux f i (fuel + 1) = if f i then streakAux f (i + 1) fuel + 1 else 0
          from rfl, if_pos hf] at hj
      cases j with
      | zero => simpa using hf
      | succ j =>
        have := ih (i + 1) j (Nat.lt_of_succ_lt_succ hj)
        simpa [Nat.add_comm, Nat.add_left_comm] using this
    · rw [show streakAux f i (fuel + 1) = if f i then streakAux f (i + 1) fuel + 1 else 0
          from rfl, if_neg (by simpa using hf)] at hj
      cases hj

/-- When the loop stops short of its fuel, the day test fails right at
the counted streak. -/
theorem streakAux_stop (f : Nat → Bool) :
    ∀ (fuel i : Nat), streakAux f i fuel < fuel → f (i + streakAux f i fuel) = false := by
  intro fuel
  induction fuel with
  | zero => intro i hi; cases hi
  | succ fuel ih =>
    intro i hi
    by_cases hf : f i = true
    · rw [show streakAux f i (fuel + 1) = if f i then streakAux f (i + 1) fuel + 1 else 0
          from rfl, if_pos hf] at hi ⊢
      have h4 := ih (i + 1) (Nat.lt_of_succ_lt_succ hi)
      have h5 : i + 1 + streakAux f (i + 1) fuel = i + (streakAux f (i + 1) fuel + 1) := by
        omega
      rwa [h5] at h4
    · rw [show streakAux f i (fuel + 1) = if f i then streakAux f (i + 1) fuel + 1 else 0
          from rfl, if_neg (by simpa using hf)] at hi ⊢
      simpa using hf

/-- A run of passing days as long as the fuel exhausts the fuel. -/
theorem streakAux_all (f : Nat → Bool) :
    ∀ (fuel i : Nat), (∀ j, j < fuel → f (i + j) = true) → streakAux f i fuel = fuel := by
  intro fuel
  induction fuel with
  | zero => intro i _; rfl
  | succ fuel ih =>
    intro i hall
    have hf : f i = true := by simpa using hall 0 (Nat.succ_pos fuel)
    show (if f i then streakAux f (i + 1) fuel + 1 else 0) = fuel + 1
    rw [if_pos hf, ih (i + 1) (fun j hj => by
      simpa [Nat.add_comm, Nat.add_left_comm] using hall (j + 1) (Nat.succ_lt_succ hj))]

/-- With enough fuel, the loop counts exactly up to the first failing
day. -/
theorem streakAux_count (f : Nat → Bool) :
    ∀ (n fuel i : Nat), n < fuel → (∀ j, j < n → f (i + j) = true) → f (i + n) = false →
      streakAux f i fuel = n := by
  intro n
  induction n with
  | zero =>
    intro fuel i hfuel _ hstop
    cases fuel with
    | zero => cases hfuel
    | succ fuel =>
      show (if f i then streakAux f (i + 1) fuel + 1 else 0) = 0
      rw [if_neg (by simpa using hstop)]
  | succ n ih =>
    intro fuel i hfuel hbelow hstop
    cases fuel with
    | zero => cases hfuel
    | succ fuel =>
      have hf : f i = true := by simpa using hbelow 0 (Nat.succ_pos n)
      show (if f i then streakAux f (i + 1) fuel + 1 else 0) = n + 1
      rw [if_pos hf, ih fuel (i + 1) (Nat.lt_of_succ_lt_succ hfuel)
        (fun j hj => by
          simpa [Nat.add_comm, Nat.add_left_comm] using hbelow (j + 1) (Nat.succ_lt_succ hj))
        (by simpa [Nat.add_comm, Nat.add_left_comm] using hstop)]

/-- Entry of a mapped list at a position within bounds. -/
theorem getD_map_lt (f : JSValue → JSValue) (l : List JSValue) :
    ∀ (i : Nat) (d : JSValue), i < l.length → (l.map f).getD i d = f (l.getD i d) := by
  induction l with
  | nil => intro i d hi; cases hi
  | cons x t ih =>
    intro i d hi
    cases i with
    | zero => rfl
    | succ i => exact ih i d (Nat.lt_of_succ_lt_succ hi)

/-- An entry read within bounds belongs to the list. -/
theorem getD_mem_of_lt (l : List JSValue) :
    ∀ (i : Nat) (d : JSValue), i < l.length → l.getD i d ∈ l := by
  induction l with
  | nil => intro i d hi; cases hi
  | cons x t ih =>
    intro i d hi
    cases i with
    | zero => exact List.mem_cons_self x t
    | succ i => exact List.mem_cons_of_mem x (ih i d (Nat.lt_of_succ_lt_succ hi))

/-- Looking up a present key in a range log returns true. -/
theorem lookup_logAllTrue (keyOf : Int → String) (today : Int) (m j : Nat) (hj : j < m) :
    List.lookup (keyOf (today - (j : Int))) (logAllTrue keyOf today m) =
      some (.bool true) := by
  apply lookup_all_const
  · intro p hp
    rcases List.mem_map.mp hp with ⟨i, -, rfl⟩
    rfl
  · exact ⟨(keyOf (today - (j : Int)), .bool true),
      List.mem_map_of_mem _ (List.mem_range.mpr hj), rfl⟩

/-! Claim theorems. -/

/-- C1: for every input value whatsoever, normalizeState returns without
raising a well-formed AppState: habits is an array whose every habit has
a non-empty string id, a non-empty string name, and a plain non-array
log object.  The raise-tracking run agreeing with the total run captures
that no property access of the JS body can throw. -/
theorem normalizeState_total_and_wellFormed (gen : Nat → String) (x : JSValue)
    (hg : ∀ i, gen i ≠ "") :
    normalizeStateExc gen x = some (normalizeState gen x) ∧
    wellFormedState (normalizeState gen x) = true := by
  refine ⟨normalizeStateExc_eq gen x, ?_⟩
  have hws : wellFormedState (normalizeState gen x) =
      (mapWithIndex (normalizeHabit gen) (habitCandidates x) 0).all wellFormedHabit := rfl
  rw [hws]
  exact mapWithIndex_all _ _ _ _
    (fun h j => wellFormedHabit_of_shape (normalizeHabit_shape gen h j (hg j)))

/-- Witness for C1 at the null input with a constant generator. -/
theorem normalizeState_total_and_wellFormed_witness :
    normalizeStateExc (fun _ => "u") .null = some (normalizeState (fun _ => "u") .null) ∧
    wellFormedState (normalizeState (fun _ => "u") .null) = true :=
  normalizeState_total_and_wellFormed (fun _ => "u") .null (fun i => show ("u" : String) ≠ "" by decide)

/-- C5: re-normalizing a normalized state is the identity whenever every
habit candidate of the input carries a truthy id, even with a different
fresh id generator in the second pass.  The first generator producing
non-empty ids reflects both schemes of the source. -/
theorem normalizeState_idempotent (gen1 gen2 : Nat → String) (x : JSValue)
    (hg : ∀ i, gen1 i ≠ "")
    (_hids : ∀ h ∈ habitCandidates x, truthy (getField h "id") = true) :
    normalizeState gen2 (normalizeState gen1 x) = normalizeState gen1 x :=
  normalizeState_fix gen1 gen2 x hg

/-- Witness for C5 on a one-habit input whose id is the truthy number
3. -/
theorem normalizeState_idempotent_witness :
    normalizeState (fun _ => "u") (normalizeState (fun _ => "u")
      (.obj [("habits", .arr [.obj [("id", .num 3)]])])) =
    normalizeState (fun _ => "u") (.obj [("habits", .arr [.obj [("id", .num 3)]])]) :=
  normalizeState_idempotent (fun _ => "u") (fun _ => "u")
    (.obj [("habits", .arr [.obj [("id", .num 3)]])]) (fun i => show ("u" : String) ≠ "" by decide) (by decide)

/-- C2 counterexample: saving and re-loading a state whose habit log
holds an undefined value does not reproduce normalizeState of the input,
because the JSON serialization drops the undefined-valued key.  The
observation firstHabitHasLogKey separates the two states. -/
theorem saveState_loadState_roundTrip_cex :
    loadState (fun _ => "u") (saveState (fun _ => "u") undefLogState).2 ≠
      normalizeState (fun _ => "u") undefLogState ∧
    firstHabitHasLogKey (loadState (fun _ => "u")
      (saveState (fun _ => "u") undefLogState).2) "k" = false ∧
    firstHabitHasLogKey (normalizeState (fun _ => "u") undefLogState) "k" = true := by
  refine ⟨fun hEq => ?_, rfl, rfl⟩
  exact absurd (congrArg (fun v => firstHabitHasLogKey v "k") hEq) (by decide)

/-- C2 (amended): for every input x containing no undefined value,
saveState followed by loadState within the same session yields exactly
normalizeState of x; the undefined-free hypothesis is forced by the
counterexample, and the first-pass generator must produce non-empty ids
as both schemes of the source do. -/
theorem saveState_loadState_roundTrip (gen1 gen2 : Nat → String) (x : JSValue)
    (hg : ∀ i, gen1 i ≠ "") (hx : undefFree x = true) :
    loadState gen2 (saveState gen1 x).2 = normalizeState gen1 x := by
  show normalizeState gen2 (jsonScrub (normalizeState gen1 x)) = normalizeState gen1 x
  rw [jsonScrub_undefFree _ (normalizeState_undefFree gen1 x hx)]
  exact normalizeState_fix gen1 gen2 x hg

/-- Witness for the amended C2 on a small undefined-free state. -/
theorem saveState_loadState_roundTrip_witness :
    loadState (fun _ => "u") (saveState (fun _ => "u")
      (.obj [("habits", .arr [.obj [("id", .str "a"), ("log", .obj [("d", .bool true)])]])])).2 =
    normalizeState (fun _ => "u")
      (.obj [("habits", .arr [.obj [("id", .str "a"), ("log", .obj [("d", .bool true)])]])]) :=
  saveState_loadState_roundTrip (fun _ => "u") (fun _ => "u")
    (.obj [("habits", .arr [.obj [("id", .str "a"), ("log", .obj [("d", .bool true)])]])])
    (fun i => show ("u" : String) ≠ "" by decide) (by decide)

/-- C6: whenever the imported file text is unparseable or parses to data
without an array-valued habits field, the import handler leaves the
in-memory state and the stored state untouched and reports failure;
saveState runs only on accepted data, so the store cell is exactly the
old one. -/
theorem importHandler_rejects_invalid (gen : Nat → String) (mem : JSValue) (store : StoreCell)
    (parsed : Option JSValue) (h : importAccepted parsed = false) :
    importHandler gen mem store parsed = (mem, store, false) := by
  cases parsed with
  | none => rfl
  | some d =>
    cases hg : getFieldExc d "habits" with
    | none => simp [importHandler, hg]
    | some hv =>
      cases hv with
      | arr l => rw [importAccepted, hg] at h; cases h
      | undefined => simp [importHandler, hg, isArrayJS]
      | null => simp [importHandler, hg, isArrayJS]
      | bool b => simp [importHandler, hg, isArrayJS]
      | num n => simp [importHandler, hg, isArrayJS]
      | str s => simp [importHandler, hg, isArrayJS]
      | obj l => simp [importHandler, hg, isArrayJS]

/-- Witness for C6 on the habits-as-string import against a one-habit
current state. -/
theorem importHandler_rejects_invalid_witness :
    importHandler (fun _ => "u") (.obj [("habits", .arr [])]) none
      (some (.obj [("habits", .str "not-an-array")])) =
      (.obj [("habits", .arr [])], none, false) :=
  importHandler_rejects_invalid (fun _ => "u") (.obj [("habits", .arr [])]) none
    (some (.obj [("habits", .str "not-an-array")])) rfl

/-- C7 counterexample: the entry with the empty array as its id has a
present and truthy id, yet the produced id is the freshly generated
value, not the coercion String([]) which is the empty string — refuting
the claim that a truthy id is always kept. -/
theorem normalizeHabit_id_cex :
    truthy (getField (.obj [("id", .arr [])]) "id") = true ∧
    jsToString (getField (.obj [("id", .arr [])]) "id") = "" ∧
    getField (normalizeHabit (fun i => "fresh" ++ toString i) (.obj [("id", .arr [])]) 0) "id" =
      .str "fresh0" ∧
    getField (normalizeHabit (fun i => "fresh" ++ toString i) (.obj [("id", .arr [])]) 0) "id" ≠
      .str (jsToString (getField (.obj [("id", .arr [])]) "id")) := by
  refine ⟨rfl, rfl, rfl, fun h => ?_⟩
  have h2 : JSValue.str "fresh0" = JSValue.str "" := h
  injection h2 with h3
  exact absurd h3 (by decide)

/-- C7 (amended): the produced id is the candidate id coerced to a
string whenever the entry is truthy, its id is truthy, and the coercion
is non-empty; when the entry or its id is falsy, or the coercion is the
empty string, the produced id is the freshly generated one. -/
theorem normalizeHabit_id_spec (gen : Nat → String) (h : JSValue) (i : Nat) :
    (truthy h = true → truthy (getField h "id") = true → jsToString (getField h "id") ≠ "" →
      getField (normalizeHabit gen h i) "id" = .str (jsToString (getField h "id"))) ∧
    (truthy h = false ∨ truthy (getField h "id") = false ∨ jsToString (getField h "id") = "" →
      getField (normalizeHabit gen h i) "id" = .str (gen i)) := by
  have hread : getField (normalizeHabit gen h i) "id" = normIdVal gen h i := rfl
  constructor
  · intro h1 h2 h3
    rw [hread]
    have h4 : truthy (JSValue.str (jsToString (getField h "id"))) = true := by
      simp [truthy, h3]
    simp [normIdVal, h1, h2, h4]
  · intro hor
    rw [hread]
    rcases hor with h1 | h1 | h1
    · simp [normIdVal, h1]
    · by_cases ht : truthy h = true
      · simp [normIdVal, ht, h1]
      · simp [normIdVal, (by simpa using ht : truthy h = false)]
    · by_cases ht : truthy h = true
      · by_cases hid : truthy (getField h "id") = true
        · have h4 : truthy (JSValue.str (jsToString (getField h "id"))) = false := by
            rw [h1]; rfl
          simp [normIdVal, ht, hid, h4]
        · simp [normIdVal, ht, (by simpa using hid : truthy (getField h "id") = false)]
      · simp [normIdVal, (by simpa using ht : truthy h = false)]

/-- Witness for the amended C7 on an entry with the truthy numeric id
7, kept as the string 7. -/
theorem normalizeHabit_id_spec_witness :
    getField (normalizeHabit (fun _ => "u") (.obj [("id", .num 7)]) 0) "id" =
      .str (jsToString (getField (.obj [("id", .num 7)]) "id")) :=
  (normalizeHabit_id_spec (fun _ => "u") (.obj [("id", .num 7)]) 0).1 rfl rfl (by decide)

/-- C8 counterexample: a name that is non-blank after trimming but
carries surrounding whitespace is stored trimmed, not verbatim as the
claim states. -/
theorem normalizeHabit_name_cex :
    getField (.obj [("name", .str " We ")]) "name" = .str " We " ∧
    jstrim " We " ≠ "" ∧
    getField (normalizeHabit (fun _ => "u") (.obj [("name", .str " We ")]) 0) "name" =
      .str "We" ∧
    getField (normalizeHabit (fun _ => "u") (.obj [("name", .str " We ")]) 0) "name" ≠
      .str " We " := by
  refine ⟨rfl, by decide, rfl, fun h => ?_⟩
  have h2 : JSValue.str "We" = JSValue.str " We " := h
  injection h2 with h3
  exact absurd h3 (by decide)

/-- C8 (amended): the produced name is the trimmed candidate name when
the entry is truthy and its name is a string that is non-blank after
trimming, and the fixed placeholder in every other case. -/
theorem normalizeHabit_name_spec (gen : Nat → String) (h : JSValue) (i : Nat) :
    (∀ s, truthy h = true → getField h "name" = .str s → jstrim s ≠ "" →
      getField (normalizeHabit gen h i) "name" = .str (jstrim s)) ∧
    ((truthy h = false ∨ (∀ s, getField h "name" ≠ .str s) ∨
        (∃ s, getField h "name" = .str s ∧ jstrim s = "")) →
      getField (normalizeHabit gen h i) "name" = .str "Untitled habit") := by
  have hread : getField (normalizeHabit gen h i) "name" = normNameVal h := rfl
  constructor
  · intro s h1 h2 h3
    rw [hread]
    have h4 : truthy (JSValue.str (jstrim s)) = true := by simp [truthy, h3]
    simp [normNameVal, h1, h2, h4]
  · intro hor
    rw [hread]
    rcases hor with h1 | h1 | ⟨s, h1, h2⟩
    · simp [normNameVal, h1]
    · by_cases ht : truthy h = true
      · cases hn : getField h "name" with
        | str s => exact absurd hn (h1 s)
        | undefined =>
          simp [normNameVal, ht, hn, show truthy (JSValue.bool false) = false from rfl]
        | null =>
          simp [normNameVal, ht, hn, show truthy (JSValue.bool false) = false from rfl]
        | bool b =>
          simp [normNameVal, ht, hn, show truthy (JSValue.bool false) = false from rfl]
        | num n =>
          simp [normNameVal, ht, hn, show truthy (JSValue.bool false) = false from rfl]
        | arr l =>
          simp [normNameVal, ht, hn, show truthy (JSValue.bool false) = false from rfl]
        | obj l =>
          simp [normNameVal, ht, hn, show truthy (JSValue.bool false) = false from rfl]
      · simp [normNameVal, (by simpa using ht : truthy h = false)]
    · by_cases ht : truthy h = true
      · have h4 : truthy (JSValue.str (jstrim s)) = false := by rw [h2]; rfl
        simp [normNameVal, ht, h1, h4]
      · simp [normNameVal, (by simpa using ht : truthy h = false)]

/-- Witness for the amended C8 on the whitespace-padded name. -/
theorem normalizeHabit_name_spec_witness :
    getField (normalizeHabit (fun _ => "u") (.obj [("name", .str " We ")]) 0) "name" =
      .str (jstrim " We ") :=
  (normalizeHabit_name_spec (fun _ => "u") (.obj [("name", .str " We ")]) 0).1
    " We " rfl rfl (by decide)

/-- C10: when the habits field of the input is an array, normalization
keeps its length and derives the entry at every position from the input
entry at the same position, habit-like or not. -/
theorem normalizeState_preserves_entries (gen : Nat → String) (x : JSValue) (l : List JSValue)
    (hx : getField x "habits" = .arr l) :
    (stateHabits (normalizeState gen x)).length = l.length ∧
    ∀ i, i < l.length →
      (stateHabits (normalizeState gen x)).getD i .undefined =
        normalizeHabit gen (l.getD i .undefined) i := by
  have hobj : ∃ fields, x = .obj fields := by
    cases x with
    | obj fields => exact ⟨fields, rfl⟩
    | undefined => cases hx
    | null => cases hx
    | bool b => cases hx
    | num n => cases hx
    | str s => cases hx
    | arr l2 => cases hx
  obtain ⟨fields, rfl⟩ := hobj
  have hcand : habitCandidates (.obj fields) = l := by
    simp [habitCandidates, truthy, typeofObject, hx]
  rw [stateHabits_normalizeState, hcand]
  refine ⟨mapWithIndex_length _ _ _, fun i hi => ?_⟩
  have := mapWithIndex_getD (normalizeHabit gen) l 0 i .undefined .undefined hi
  simpa using this

/-- Witness for C10 on a two-entry array holding null and a number. -/
theorem normalizeState_preserves_entries_witness :
    (stateHabits (normalizeState (fun _ => "u")
      (.obj [("habits", .arr [.null, .num 7])]))).length = 2 ∧
    (stateHabits (normalizeState (fun _ => "u")
      (.obj [("habits", .arr [.null, .num 7])]))).getD 1 .undefined =
      normalizeHabit (fun _ => "u") (.num 7) 1 := by
  have h := normalizeState_preserves_entries (fun _ => "u")
    (.obj [("habits", .arr [.null, .num 7])]) [.null, .num 7] rfl
  exact ⟨h.1, h.2 1 (by decide)⟩

/-- C3 counterexample: with all of the last 366 days marked true, the
walk finds 366 consecutive truthy days (the loop with ample fuel counts
366), yet computeStreak reports 365 — the claim omits the 365-iteration
cap of the source. -/
theorem computeStreak_cap_cex :
    computeStreak intKey 1000 habit366 = 365 ∧
    streakAux (habitDayTruthy intKey 1000 habit366) 0 1000 = 366 ∧
    computeStreak intKey 1000 habit366 ≠
      streakAux (habitDayTruthy intKey 1000 habit366) 0 1000 := by
  have hA : ∀ j, j < 366 → habitDayTruthy intKey 1000 habit366 j = true := by
    intro j hj
    have hl := lookup_logAllTrue intKey 1000 366 j hj
    show truthy (getField (getField habit366 "log") (intKey (1000 - (j : Int)))) = true
    rw [show getField habit366 "log" = .obj (logAllTrue intKey 1000 366) from rfl]
    show truthy ((List.lookup (intKey (1000 - (j : Int)))
      (logAllTrue intKey 1000 366)).getD .undefined) = true
    rw [hl]
    rfl
  have hB : habitDayTruthy intKey 1000 habit366 366 = false := by decide
  have hguard : ¬(truthy habit366 = false ∨ truthy (getField habit366 "log") = false) := by
    rintro (h | h)
    · rw [show truthy habit366 = true from rfl] at h
      cases h
    · rw [show truthy (getField habit366 "log") = true from rfl] at h
      cases h
  have h1 : computeStreak intKey 1000 habit366 = 365 := by
    rw [computeStreak, if_neg hguard]
    exact streakAux_all _ 365 0 (fun j hj => by simpa using hA j (by omega))
  have h2 : streakAux (habitDayTruthy intKey 1000 habit366) 0 1000 = 366 :=
    streakAux_count _ 366 1000 0 (by omega) (fun j hj => by simpa using hA j hj)
      (by simpa using hB)
  exact ⟨h1, h2, by rw [h1, h2]; omega⟩

/-- C3 (amended): computeStreak equals the number of consecutive local
calendar days, starting at today and walking backwards, whose date keys
map to truthy log values, stopping at the first absent or falsy day or
after 365 days, whichever comes first; a falsy or absent entry for today
yields 0, and a falsy habit or falsy/missing log yields 0. -/
theorem computeStreak_characterization (keyOf : Int → String) (today : Int) (habit : JSValue) :
    (truthy habit = false ∨ truthy (getField habit "log") = false →
      computeStreak keyOf today habit = 0) ∧
    (habitDayTruthy keyOf today habit 0 = false → computeStreak keyOf today habit = 0) ∧
    computeStreak keyOf today habit ≤ 365 ∧
    (∀ i, i < computeStreak keyOf today habit → habitDayTruthy keyOf today habit i = true) ∧
    (truthy habit = true → truthy (getField habit "log") = true →
      computeStreak keyOf today habit < 365 →
      habitDayTruthy keyOf today habit (computeStreak keyOf today habit) = false) := by
  by_cases hc : truthy habit = false ∨ truthy (getField habit "log") = false
  · have h0 : computeStreak keyOf today habit = 0 := by rw [computeStreak, if_pos hc]
    refine ⟨fun _ => h0, fun _ => h0, by rw [h0]; omega, ?_, ?_⟩
    · intro i hi
      rw [h0] at hi
      cases hi
    · intro h1 h2 _
      rcases hc with h3 | h3
      · rw [h1] at h3; cases h3
      · rw [h2] at h3; cases h3
  · have he : computeStreak keyOf today habit =
        streakAux (habitDayTruthy keyOf today habit) 0 365 := by
      rw [computeStreak, if_neg hc]
    refine ⟨fun h1 => absurd h1 hc, ?_, ?_, ?_, ?_⟩
    · intro h0
      rw [he]
      exact streakAux_count _ 0 365 0 (by omega)
        (fun j hj => absurd hj (Nat.not_lt_zero j)) h0
    · rw [he]
      exact streakAux_le _ 365 0
    · intro i hi
      rw [he] at hi
      have := streakAux_true_below _ 365 0 i hi
      simpa using this
    · intro _ _ hlt
      rw [he] at hlt ⊢
      have := streakAux_stop _ 365 0 hlt
      simpa using this

/-- Witness for the amended C3: today and yesterday marked, the walk
stops two days back at the first absent key. -/
theorem computeStreak_characterization_witness :
    habitDayTruthy intKey 5 (.obj [("log", .obj [("5", .bool true), ("4", .bool true)])])
      (computeStreak intKey 5
        (.obj [("log", .obj [("5", .bool true), ("4", .bool true)])])) = false :=
  (computeStreak_characterization intKey 5
    (.obj [("log", .obj [("5", .bool true), ("4", .bool true)])])).2.2.2.2 rfl rfl (by decide)

/-- C4: the streak is at most 365 for every habit, and a log marking all
of the last 400 days true yields exactly 365. -/
theorem computeStreak_bound365 :
    (∀ (keyOf : Int → String) (today : Int) (habit : JSValue),
      computeStreak keyOf today habit ≤ 365) ∧
    ∀ (keyOf : Int → String) (today : Int),
      computeStreak keyOf today (habit400 keyOf today) = 365 := by
  constructor
  · intro keyOf today habit
    by_cases hc : truthy habit = false ∨ truthy (getField habit "log") = false
    · rw [computeStreak, if_pos hc]
      omega
    · rw [computeStreak, if_neg hc]
      exact streakAux_le _ 365 0
  · intro keyOf today
    have hguard : ¬(truthy (habit400 keyOf today) = false ∨
        truthy (getField (habit400 keyOf today) "log") = false) := by
      rintro (h | h)
      · rw [show truthy (habit400 keyOf today) = true from rfl] at h
        cases h
      · rw [show truthy (getField (habit400 keyOf today) "log") = true from rfl] at h
        cases h
    rw [computeStreak, if_neg hguard]
    apply streakAux_all
    intro j hj
    rw [Nat.zero_add]
    have hl := lookup_logAllTrue keyOf today 400 j (by omega)
    show truthy (getField (getField (habit400 keyOf today) "log")
      (keyOf (today - (j : Int)))) = true
    rw [show getField (habit400 keyOf today) "log" = .obj (logAllTrue keyOf today 400) from rfl]
    show truthy ((List.lookup (keyOf (today - (j : Int)))
      (logAllTrue keyOf today 400)).getD .undefined) = true
    rw [hl]
    rfl

/-- A habit of canonical shape whose id differs from the clicked id
passes through the toggle untouched. -/
theorem toggleHabit_ne (habitId dayKey a n : String) (lg : List (String × JSValue))
    (hane : a ≠ habitId) :
    toggleHabit habitId dayKey (.obj [("id", .str a), ("name", .str n), ("log", .obj lg)]) =
      .obj [("id", .str a), ("name", .str n), ("log", .obj lg)] := by
  have hb : (a == habitId) = false := beq_eq_false_iff_ne.mpr hane
  simp only [toggleHabit]
  split
  · rfl
  · next hcon => exact absurd hb hcon

/-- The toggle on the matching habit of canonical shape keeps id and
name and overwrites the day key of the log with the negated truthiness
of its previous entry. -/
theorem toggleHabit_eq (habitId dayKey n : String) (lg : List (String × JSValue)) :
    toggleHabit habitId dayKey
      (.obj [("id", .str habitId), ("name", .str n), ("log", .obj lg)]) =
      .obj [("id", .str habitId), ("name", .str n),
        ("log", .obj (setPropList lg dayKey
          (.bool (!truthy ((List.lookup dayKey lg).getD .undefined)))))] := by
  simp only [toggleHabit]
  split
  · next hcon => exact absurd hcon (show ¬((habitId == habitId) = false) by simp)
  · rfl

/-- C9: toggling a day cell on an already-normalized state whose habits
carry the canonical shape changes at most the log entry of the clicked
day key on habits with the clicked id: every habit with a different id
is unchanged, and a clicked habit keeps its id, its name, and every log
entry under any other key. -/
theorem toggleDay_frame (gen : Nat → String) (st : JSValue) (habitId dayKey : String)
    (hst : ∀ h ∈ stateHabits st, normalizedHabitShape h) :
    (stateHabits (toggleDay gen st habitId dayKey).1).length = (stateHabits st).length ∧
    ∀ i, i < (stateHabits st).length →
      (habitIdStr ((stateHabits st).getD i .undefined) ≠ some habitId →
        (stateHabits (toggleDay gen st habitId dayKey).1).getD i .undefined =
          (stateHabits st).getD i .undefined) ∧
      (habitIdStr ((stateHabits st).getD i .undefined) = some habitId →
        habitIdStr ((stateHabits (toggleDay gen st habitId dayKey).1).getD i .undefined) =
          habitIdStr ((stateHabits st).getD i .undefined) ∧
        habitNameStr ((stateHabits (toggleDay gen st habitId dayKey).1).getD i .undefined) =
          habitNameStr ((stateHabits st).getD i .undefined) ∧
        ∀ k, k ≠ dayKey →
          habitLogEntry ((stateHabits (toggleDay gen st habitId dayKey).1).getD i .undefined) k =
            habitLogEntry ((stateHabits st).getD i .undefined) k) := by
  have hout : stateHabits (toggleDay gen st habitId dayKey).1 =
      mapWithIndex (normalizeHabit gen)
        ((stateHabits st).map (toggleHabit habitId dayKey)) 0 := rfl
  have hlen : (stateHabits (toggleDay gen st habitId dayKey).1).length =
      (stateHabits st).length := by
    rw [hout, mapWithIndex_length, List.length_map]
  refine ⟨hlen, fun i hi => ?_⟩
  have hmlen : i < ((stateHabits st).map (toggleHabit habitId dayKey)).length := by
    rw [List.length_map]; exact hi
  have hgetd : (stateHabits (toggleDay gen st habitId dayKey).1).getD i .undefined =
      normalizeHabit gen (toggleHabit habitId dayKey ((stateHabits st).getD i .undefined)) i := by
    rw [hout, mapWithIndex_getD _ _ 0 i .undefined .undefined hmlen, Nat.zero_add,
      getD_map_lt _ _ i .undefined hi]
  obtain ⟨a, n, lg, hsh, ha, hn, htrim⟩ := hst _ (getD_mem_of_lt _ i .undefined hi)
  have hid0 : habitIdStr ((stateHabits st).getD i .undefined) = some a := by
    rw [hsh]; rfl
  constructor
  · intro hne
    have hane : a ≠ habitId := fun he => hne (by rw [hid0, he])
    have hshape : normalizedHabitShape
        (JSValue.obj [("id", .str a), ("name", .str n), ("log", .obj lg)]) :=
      ⟨a, n, lg, rfl, ha, hn, htrim⟩
    rw [hgetd, hsh, toggleHabit_ne habitId dayKey a n lg hane,
      normalizeHabit_fixpoint gen hshape i]
  · intro heq
    have haeq : a = habitId := by
      rw [hid0] at heq
      injection heq
    subst haeq
    have hshape2 : normalizedHabitShape
        (JSValue.obj [("id", .str a), ("name", .str n),
          ("log", .obj (setPropList lg dayKey
            (.bool (!truthy ((List.lookup dayKey lg).getD .undefined)))))]) :=
      ⟨a, n, setPropList lg dayKey (.bool (!truthy ((List.lookup dayKey lg).getD .undefined))),
        rfl, ha, hn, htrim⟩
    refine ⟨?_, ?_, ?_⟩
    · rw [hgetd, hsh, toggleHabit_eq a dayKey n lg, normalizeHabit_fixpoint gen hshape2 i]
      rfl
    · rw [hgetd, hsh, toggleHabit_eq a dayKey n lg, normalizeHabit_fixpoint gen hshape2 i]
      rfl
    · intro k hk
      rw [hgetd, hsh, toggleHabit_eq a dayKey n lg, normalizeHabit_fixpoint gen hshape2 i]
      show List.lookup k (setPropList lg dayKey
        (.bool (!truthy ((List.lookup dayKey lg).getD .undefined)))) = List.lookup k lg
      exact lookup_setPropList_ne lg dayKey k _ hk

/-- Witness for C9 on the two-habit state, checking that toggling habit
a leaves habit b untouched. -/
theorem toggleDay_frame_witness :
    (stateHabits (toggleDay (fun _ => "u") twoHabitState "a" "d").1).getD 1 .undefined =
      (stateHabits twoHabitState).getD 1 .undefined := by
  have hst : ∀ h ∈ stateHabits twoHabitState, normalizedHabitShape h := by
    intro h hh
    rcases List.mem_cons.mp hh with rfl | hh2
    · exact ⟨"a", "n", [("d", .bool true)], rfl, by decide, by decide, by decide⟩
    · rcases List.mem_cons.mp hh2 with rfl | hh3
      · exact ⟨"b", "m", [], rfl, by decide, by decide, by decide⟩
      · cases hh3
  exact ((toggleDay_frame (fun _ => "u") twoHabitState "a" "d" hst).2 1 (by decide)).1
    (by decide)
